import Mathlib

/-!
Verification development for the crocodile PR-review service.

Shallow embedding of the Python sources:
  * `src/utils/diff_parser.py`   — `DiffParser`, `validate_and_filter_comments`
  * `src/services/review_service.py` — `generate_review_for_pr`
  * `src/services/github_service.py` — `GitHubService` (token caching, `post_review`)
  * `src/worker.py`              — `orchestrate_review`

Strings are modelled as `List Char` (a line of text), and a diff text as a
`String` that is split on `"\n"` exactly as Python's `str.split("\n")` does.
Python dictionaries with a known key set are modelled as structures; the
loosely-typed comment candidates coming from the LLM are modelled as
association lists over a small Python-value type `PyVal` (covering the
values `None`, `int`, `str`, which are the shapes the code under test
reads and compares).
-/

/-- Python values relevant to the comment-candidate dictionaries:
`None`, integers and strings (a string is a `List Char`). -/
inductive PyVal where
  | none
  | int (n : Int)
  | str (s : List Char)
  deriving DecidableEq

/-- Python truthiness for the modelled values: `None` is falsy, `0` is falsy,
`""` is falsy, everything else truthy. -/
def truthy : PyVal → Bool
  | .none => false
  | .int n => n != 0
  | .str s => !s.isEmpty

/-- Python `==` on the modelled values (values of different types compare
unequal; `None == None` is true). -/
def pyEq : PyVal → PyVal → Bool
  | .none, .none => true
  | .int a, .int b => a == b
  | .str a, .str b => a == b
  | _, _ => false

/-- Python `isinstance(v, int)` restricted to the modelled values. -/
def isIntVal : PyVal → Bool
  | .int _ => true
  | _ => false

/-- A raw comment candidate produced by the generation collaborator: either
not a dictionary at all (tagged so distinct non-dict objects exist), or a
dictionary with arbitrary string keys. -/
inductive Candidate where
  | nonDict (tag : Nat)
  | dict (fields : List (String × PyVal))
  deriving DecidableEq

/-- Python `d.get(k)` on a candidate dictionary: `None` when the key is
absent. -/
def dictGet (fields : List (String × PyVal)) (k : String) : PyVal :=
  match fields.find? (fun kv => kv.1 == k) with
  | some kv => kv.2
  | Option.none => .none

/-- Python `d.get(k, default)`: the default is returned only when the key is
absent (a key present with value `None` yields `None`). -/
def dictGetD (fields : List (String × PyVal)) (k : String) (d : PyVal) : PyVal :=
  match fields.find? (fun kv => kv.1 == k) with
  | some kv => kv.2
  | Option.none => d

/-- `line.startswith(p)` on a text line. -/
def pfx (p : String) (l : List Char) : Bool :=
  p.toList.isPrefixOf l

/-- Split a character list at every newline, Python `str.split("\n")`
semantics: the result always has one more element than there are newlines,
and an empty input yields one empty line. -/
def splitNL : List Char → List (List Char)
  | [] => [[]]
  | c :: cs =>
      match splitNL cs with
      | [] => [[]]
      | r :: rs => if c = '\n' then [] :: r :: rs else (c :: r) :: rs

/-- Python `diff.split("\n")`, each line as a `List Char`. -/
def pyLines (diff : String) : List (List Char) :=
  splitNL diff.toList

/-! ## Diff parser (`src/utils/diff_parser.py`, `DiffParser._parse_diff`) -/

/-- One entry of a hunk's `lines` list.  The source only ever appends entries
with `"type": "added"`, so the tag is not modelled. -/
structure HunkLine where
  line_number : Nat
  content : List Char
  deriving DecidableEq

/-- A hunk: `new_start`, the running cursor `current_line`, and the recorded
(added) lines. -/
structure Hunk where
  new_start : Nat
  current_line : Nat
  lines : List HunkLine
  deriving DecidableEq

/-- A parsed file diff as stored in `DiffParser.files`: the `path` is `none`
while/if the `+++ b/` marker never resolved it. -/
structure FileDiff where
  path : Option (List Char)
  hunks : List Hunk
  commentable_lines : List (Nat × List Char)
  deriving DecidableEq

/-- The in-progress file during parsing.  Python appends `current_hunk` into
`current_file["hunks"]` at creation and keeps mutating it through the alias;
we keep the still-mutating hunk in `pending` and the already-closed hunks in
`closed`, concatenating on close (`closeFile`). -/
structure CurFile where
  path : Option (List Char)
  closed : List Hunk
  pending : Option Hunk
  comm : List (Nat × List Char)
  deriving DecidableEq

/-- Parser state: emitted files plus the open file, if any.  Python's
`current_hunk` can be non-`None` while `current_file is None` (a valid `@@`
header before any `diff --git` line); that orphan hunk is inert — the content
branch requires `current_file` as well, and the next `diff --git` resets
`current_hunk = None` — so it is not carried in the state. -/
structure PSt where
  files : List FileDiff
  cur : Option CurFile
  deriving DecidableEq

/-- Closing a file materialises the pending hunk at the end of its hunk
list, matching the order Python obtained by appending at creation time. -/
def closeFile (c : CurFile) : FileDiff :=
  ⟨c.path, c.closed ++ c.pending.toList, c.comm⟩

/-- Python-dict insertion on the commentable map: an existing key is updated
in place, a new key is appended (insertion order preserved). -/
def dictInsert (d : List (Nat × List Char)) (k : Nat) (v : List Char) :
    List (Nat × List Char) :=
  if d.any (fun kv => kv.1 == k) then
    d.map (fun kv => if kv.1 == k then (k, v) else kv)
  else d ++ [(k, v)]

/-- Consume a maximal run of decimal digits, accumulating their value. -/
def takeDigitsAux (acc : Nat) : List Char → Nat × List Char
  | [] => (acc, [])
  | c :: cs =>
      if c.isDigit then takeDigitsAux (acc * 10 + (c.toNat - '0'.toNat)) cs
      else (acc, c :: cs)

/-- `\d+`: at least one digit, greedily. -/
def takeDigits : List Char → Option (Nat × List Char)
  | [] => Option.none
  | c :: cs =>
      if c.isDigit then some (takeDigitsAux (c.toNat - '0'.toNat) cs)
      else Option.none

/-- Strip an exact character-list prefix. -/
def stripChars : List Char → List Char → Option (List Char)
  | [], l => some l
  | _ :: _, [] => Option.none
  | p :: ps, c :: cs => if p = c then stripChars ps cs else Option.none

/-- The optional `(?:,(\d+))?` group: consumed only when a comma followed by
at least one digit is present (matching the regex: if the comma is not
followed by a digit the group matches empty and the subsequent literal
fails on the comma, exactly as this function's caller will). -/
def optCommaDigits (cs : List Char) : List Char :=
  match cs with
  | ',' :: rest =>
      match takeDigits rest with
      | some r => r.2
      | Option.none => cs
  | _ => cs

/-- `re.match(r"@@ -(\d+)(?:,(\d+))? \+(\d+)(?:,(\d+))? @@", line)`,
returning group 3 (`new_start`) on success.  `re.match` anchors only the
start, so trailing text after the closing `@@` is allowed.  Backtracking
cannot rescue a failed parse here: `\d+` is followed by a non-digit literal
in every position, so the greedy, single-pass reading is equivalent. -/
def matchHunkHeader (l : List Char) : Option Nat := do
  let r1 ← stripChars "@@ -".toList l
  let d1 ← takeDigits r1
  let r2 := optCommaDigits d1.2
  let r3 ← stripChars " +".toList r2
  let d2 ← takeDigits r3
  let r4 := optCommaDigits d2.2
  let _ ← stripChars " @@".toList r4
  some d2.1

/-- One iteration of the `while` loop of `DiffParser._parse_diff`, branch for
branch in source order. -/
def step (st : PSt) (line : List Char) : PSt :=
  if pfx "diff --git" line then
    { files := st.files ++ (st.cur.map closeFile).toList,
      cur := some ⟨Option.none, [], Option.none, []⟩ }
  else if pfx "+++ b/" line then
    match st.cur with
    | some c => { st with cur := some { c with path := some (line.drop 6) } }
    | Option.none => st
  else if pfx "@@" line then
    match matchHunkHeader line with
    | some ns =>
        match st.cur with
        | some c =>
            { st with cur := some { c with closed := c.closed ++ c.pending.toList,
                                           pending := some ⟨ns, ns, []⟩ } }
        | Option.none => st
    | Option.none => st
  else
    match st.cur with
    | some c =>
        match c.pending with
        | some h =>
            if pfx "+" line && !pfx "+++" line then
              { st with cur := some { c with
                  comm := dictInsert c.comm h.current_line (line.drop 1),
                  pending := some ⟨h.new_start, h.current_line + 1,
                                   h.lines ++ [⟨h.current_line, line.drop 1⟩]⟩ } }
            else if pfx "-" line && !pfx "---" line then st
            else if pfx " " line then
              { st with cur := some { c with
                  pending := some { h with current_line := h.current_line + 1 } } }
            else st
        | Option.none => st
    | Option.none => st

/-- Python truthiness of a file's `path` field (`None` and `""` are falsy). -/
def pathTruthy : Option (List Char) → Bool
  | Option.none => false
  | some [] => false
  | some (_ :: _) => true

/-- End of the loop: the still-open file is appended only if
`current_file and current_file["path"]`. -/
def finishP (st : PSt) : List FileDiff :=
  st.files ++
    (match st.cur with
     | some c => if pathTruthy c.path then [closeFile c] else []
     | Option.none => [])

/-- `DiffParser._parse_diff` on the already-split lines. -/
def parseLines (ls : List (List Char)) : List FileDiff :=
  finishP (ls.foldl step ⟨[], Option.none⟩)

/-- The `DiffParser` object: construction parses the diff once. -/
structure DiffParser where
  files : List FileDiff
  deriving DecidableEq

/-- `DiffParser(diff)`. -/
def DiffParser.parse (diff : String) : DiffParser :=
  ⟨parseLines (pyLines diff)⟩

/-- Python `file["path"] == file_path` where the right-hand side is the
candidate-supplied value. -/
def pyEqPath : Option (List Char) → PyVal → Bool
  | Option.none, .none => true
  | some cs, .str s => cs == s
  | _, _ => false

/-- `DiffParser.get_commentable_lines`: the map of the first file whose path
equals the argument, else empty. -/
def DiffParser.get_commentable_lines (dp : DiffParser) (p : PyVal) :
    List (Nat × List Char) :=
  match dp.files.find? (fun f => pyEqPath f.path p) with
  | some f => f.commentable_lines
  | Option.none => []

/-- `DiffParser.is_line_commentable`: `line_number in commentable`. -/
def DiffParser.is_line_commentable (dp : DiffParser) (p l : PyVal) : Bool :=
  (dp.get_commentable_lines p).any (fun kv => pyEq (.int kv.1) l)

/-- `DiffParser.get_all_files`: `[f["path"] for f in self.files if f["path"]]`. -/
def DiffParser.get_all_files (dp : DiffParser) : List (List Char) :=
  dp.files.filterMap (fun f => if pathTruthy f.path then f.path else Option.none)

/-! ## Commentable-line rendering (`DiffParser.get_added_lines_context`) -/

/-- Insertion sort by key, modelling Python `sorted(d.items())` (keys in the
commentable map are produced by dict insertion and are pairwise distinct, so
ordering by key alone reproduces the tuple order). -/
def insertByKey (kv : Nat × List Char) : List (Nat × List Char) → List (Nat × List Char)
  | [] => [kv]
  | kv2 :: rest =>
      if kv.1 ≤ kv2.1 then kv :: kv2 :: rest else kv2 :: insertByKey kv rest

/-- Sort an association list by key. -/
def sortByKey : List (Nat × List Char) → List (Nat × List Char)
  | [] => []
  | kv :: rest => insertByKey kv (sortByKey rest)

/-- `content[:100] + "..." if len(content) > 100 else content`. -/
def truncate100 (cs : List Char) : List Char :=
  if cs.length > 100 then cs.take 100 ++ "...".toList else cs

/-- `f"  Line {line_num}: {display_content}"`. -/
def lineEntry (kv : Nat × List Char) : List Char :=
  "  Line ".toList ++ (toString kv.1).toList ++ ": ".toList ++ truncate100 kv.2

/-- The context entries contributed by one file:
`f"\n File: {path}"`, the separator `"-" * 60`, then one line per map entry. -/
def fileEntries (f : FileDiff) : List (List Char) :=
  ('\n' :: " File: ".toList ++ f.path.getD []) ::
    List.replicate 60 '-' ::
    (sortByKey f.commentable_lines).map lineEntry

/-- `"\n".join(entries)`. -/
def joinNL : List (List Char) → List Char
  | [] => []
  | [x] => x
  | x :: y :: rest => x ++ '\n' :: joinNL (y :: rest)

/-- The sentinel returned when files exist but none contributes entries. -/
def sentinelNoAdded : List Char := "No added lines found in diff.".toList

/-- The message returned for a diff with no files at all (note: distinct from
`sentinelNoAdded`). -/
def msgNoChanges : List Char := "No changes detected in diff.".toList

/-- One iteration of the `for file in self.files` loop of
`get_added_lines_context`: a file with a falsy path or an empty commentable
map is skipped (`continue`), any other file appends its entries. -/
def ctxStep (acc : List (List Char)) (f : FileDiff) : List (List Char) :=
  if !pathTruthy f.path || f.commentable_lines.isEmpty then acc
  else acc ++ fileEntries f

/-- `DiffParser.get_added_lines_context`. -/
def DiffParser.get_added_lines_context (dp : DiffParser) : List Char :=
  if dp.files.isEmpty then msgNoChanges
  else
    let entries := dp.files.foldl ctxStep []
    if entries.isEmpty then sentinelNoAdded
    else joinNL entries

/-! ## Comment validator (`validate_and_filter_comments`) -/

/-- The normalized comment dictionary the validator emits
(`{"path": path, "line": line, "side": comment.get("side", "RIGHT"), "body": body}`). -/
structure OutComment where
  path : PyVal
  line : PyVal
  side : PyVal
  body : PyVal
  deriving DecidableEq

/-- One iteration of the `for i, comment in enumerate(comments)` loop of
`validate_and_filter_comments`: the four rejection gates in source order,
then the append of the normalized dictionary. -/
def validStep (dp : DiffParser) (acc : List OutComment) (c : Candidate) :
    List OutComment :=
  match c with
  | .nonDict _ => acc
  | .dict fs =>
      let path := dictGet fs "path"
      let line := dictGet fs "line"
      let body := dictGet fs "body"
      if !(truthy path && truthy line && truthy body) then acc
      else if !isIntVal line then acc
      else if !dp.is_line_commentable path line then acc
      else acc ++ [⟨path, line, dictGetD fs "side" (.str "RIGHT".toList), body⟩]

/-- `validate_and_filter_comments(comments, diff_parser)`: the loop of
`src/utils/diff_parser.py` lines 117–173 (the `print` diagnostics and the
`invalid_count` counter have no effect on the returned value and are not
modelled). -/
def validate_and_filter_comments (comments : List Candidate) (dp : DiffParser) :
    List OutComment :=
  comments.foldl (validStep dp) []

/-- Acceptance predicate of the validator, factored out of the loop above
(same tests, same order of evaluation). -/
def acceptsCand (dp : DiffParser) : Candidate → Bool
  | .nonDict _ => false
  | .dict fs =>
      truthy (dictGet fs "path") && truthy (dictGet fs "line") &&
      truthy (dictGet fs "body") && isIntVal (dictGet fs "line") &&
      dp.is_line_commentable (dictGet fs "path") (dictGet fs "line")

/-- Normalization applied to an accepted candidate. -/
def normCand : Candidate → OutComment
  | .nonDict _ => ⟨.none, .none, .none, .none⟩
  | .dict fs =>
      ⟨dictGet fs "path", dictGet fs "line",
       dictGetD fs "side" (.str "RIGHT".toList), dictGet fs "body"⟩

/-! ## Review generation (`src/services/review_service.py`) -/

/-- The dictionary shape of a generation response as the orchestrator reads
it.  A field is `none` when the key is absent.  Model scope: responses whose
`summary` value, when present, is a string and whose `comments` value, when
present, is a list (other shapes crash the logging code below the guarded
call; the non-dict response, the shape the claims exercise, is modelled
separately in `GenOutcome`). -/
structure AIResp where
  summary : Option String
  comments : Option (List Candidate)
  deriving DecidableEq

/-- The behaviour of `review_chain.ainvoke` for one run: it raises (transport
error, or the JSON parser inside the chain rejects the model text), or it
returns a parsed JSON value — either a non-dict (e.g. a JSON array) or a
dict-shaped response. -/
inductive GenOutcome where
  | raises
  | returnsNonDict
  | returnsDict (r : AIResp)
  deriving DecidableEq

/-- Either a normally returned value or an uncaught Python exception
(identified by its message). -/
inductive PyResult (α : Type) where
  | ok (a : α)
  | exn (e : List Char)
  deriving DecidableEq

/-- Result of `generate_review_for_pr`: whether `review_chain.ainvoke` was
invoked, and either the returned response dict or an uncaught exception. -/
structure GenRun where
  invoked : Bool
  result : PyResult AIResp
  deriving DecidableEq

/-- The placeholder returned without invoking the chain when the context is
empty after strip or equals the sentinel. -/
def noAddedResp : AIResp :=
  ⟨some "This PR contains no added code lines to review (only deletions or file renames).",
   some []⟩

/-- The placeholder returned when `review_chain.ainvoke` raises. -/
def genFailedResp : AIResp :=
  ⟨some "Failed to generate AI review due to an error.", some []⟩

/-- `generate_review_for_pr(pr_title, pr_body, diff)` (the title and body
only affect the prompt, not the control flow, and are omitted).  `not
commentable_context.strip()` is the all-whitespace test.  A response that is
not a dict raises `AttributeError` at `response.get("summary", "N/A")`,
which sits outside the `try` block. -/
def generate_review_for_pr (diff : String) (g : GenOutcome) : GenRun :=
  let dp := DiffParser.parse diff
  let ctx := dp.get_added_lines_context
  if ctx.all Char.isWhitespace || ctx == sentinelNoAdded then
    ⟨false, .ok noAddedResp⟩
  else
    match g with
    | .raises => ⟨true, .ok genFailedResp⟩
    | .returnsNonDict => ⟨true, .exn "AttributeError".toList⟩
    | .returnsDict r => ⟨true, .ok r⟩

/-! ## Worker orchestration (`src/worker.py`, `orchestrate_review`) -/

/-- `find_file_path_from_diff(diff)`. -/
def find_file_path_from_diff (diff : String) : PyVal :=
  match (pyLines diff).find? (fun l => pfx "+++ b/" l) with
  | some l => .str (l.drop 6)
  | Option.none => .str "unknown_file.py".toList

/-- A `{"path": ..., "position": ..., "body": ...}` dictionary built by the
comment-placement loop of `orchestrate_review`. -/
structure PosComment where
  path : PyVal
  position : Nat
  body : PyVal
  deriving DecidableEq

/-- `comment.get(k)` where `comment` may not be a dictionary
(`AttributeError` in that case). -/
def candGet (c : Candidate) (k : String) : PyResult PyVal :=
  match c with
  | .nonDict _ => .exn "AttributeError".toList
  | .dict fs => .ok (dictGet fs k)

/-- `comment[k]` — `KeyError` when the key is absent. -/
def candIndex (c : Candidate) (k : String) : PyResult PyVal :=
  match c with
  | .nonDict _ => .exn "TypeError".toList
  | .dict fs =>
      match fs.find? (fun kv => kv.1 == k) with
      | some kv => .ok kv.2
      | Option.none => .exn "KeyError: comment".toList

/-- The inner `for comment in ai_comments` loop of `orchestrate_review`
at one diff line: appends one positioned comment per candidate whose
`line_number` equals `current_file_line`. -/
def innerMatches (fp : PyVal) (pos : Nat) (cfl : Int) :
    List Candidate → PyResult (List PosComment)
  | [] => .ok []
  | c :: cs =>
      match candGet c "line_number" with
      | .exn e => .exn e
      | .ok lv =>
          if pyEq lv (.int cfl) then
            match candIndex c "comment" with
            | .exn e => .exn e
            | .ok b =>
                match innerMatches fp pos cfl cs with
                | .exn e => .exn e
                | .ok rest => .ok (⟨fp, pos, b⟩ :: rest)
          else innerMatches fp pos cfl cs

/-- The comment-placement loop of `orchestrate_review` (worker.py lines
88–108): walks the raw diff lines tracking `position_in_diff` and
`current_file_line`. -/
def fmtGo (fp : PyVal) (cands : List Candidate) :
    List (List Char) → Nat → Int → List PosComment → PyResult (List PosComment)
  | [], _, _, acc => .ok acc
  | l :: ls, pos, cfl, acc =>
      let pos' := pos + 1
      if pfx "---" l || pfx "+++" l || pfx "@@" l then fmtGo fp cands ls pos' cfl acc
      else
        let cfl' := if !pfx "-" l then cfl + 1 else cfl
        match innerMatches fp pos' cfl' cands with
        | .exn e => .exn e
        | .ok newcs => fmtGo fp cands ls pos' cfl' (acc ++ newcs)

/-- The whole placement loop from its initial counters. -/
def formatReviewLoop (diff : String) (cands : List Candidate) : PyResult (List PosComment) :=
  fmtGo (find_file_path_from_diff diff) cands (pyLines diff) 0 0 []

/-- Terminal state of one review job as `review_pull_request_task` reports
it: the success string returned by `orchestrate_review`, or the failure
string built from the caught exception. -/
inductive Terminal where
  | completed (msg : String)
  | failed (e : List Char)
  deriving DecidableEq

/-- Successful Fetch-stage data: PR title, PR body (after the
`or "No description provided."` default) and the raw diff text. -/
structure FetchOk where
  title : String
  body : String
  diff : String
  deriving DecidableEq

/-- Parameters of `GitHubService.post_review` (github_service.py line 121),
excluding `self`; none of them has a default. -/
def post_review_params : List String :=
  ["repo_full_name", "pr_number", "review_summary", "review_comments", "diff"]

/-- Keyword arguments supplied at the call site in `orchestrate_review`
(worker.py lines 110–115). -/
def orchestrate_post_kwargs : List String :=
  ["repo_full_name", "pr_number", "review_summary", "review_comments"]

/-- Python call binding for keyword-only call sites: every parameter without
a default must be supplied, and no unexpected keyword may appear; otherwise
the call raises `TypeError` before the function body runs. -/
def callBinds (params kwargs : List String) : Bool :=
  params.all (fun p => kwargs.contains p) && kwargs.all (fun k => params.contains k)

/-- Observable trace of one `orchestrate_review` run. -/
structure RunTrace where
  genInvoked : Bool
  genResult : Option (PyResult AIResp)
  reachedPostCall : Bool
  terminal : Terminal
  deriving DecidableEq

/-- `orchestrate_review(installation_id, repo_full_name, pr_number)` as run
inside `review_pull_request_task`'s `try`.  `fetch` is the joint outcome of
the gathered `get_pr_details`/`get_pr_diff` pair; `post` is what
`post_review` would return if it were ever entered.  The final call site
passes `post_review` four keyword arguments while its signature requires
five (`diff` is missing), so evaluating the call raises `TypeError` before
the coroutine is created. -/
def orchestrate_review (fetch : PyResult FetchOk) (g : GenOutcome)
    (post : PyResult Unit) : RunTrace :=
  match fetch with
  | .exn e => ⟨false, Option.none, false, .failed e⟩
  | .ok fr =>
      let gr := generate_review_for_pr fr.diff g
      match gr.result with
      | .exn e => ⟨gr.invoked, some (.exn e), false, .failed e⟩
      | .ok r =>
          let ai_comments := r.comments.getD []
          match formatReviewLoop fr.diff ai_comments with
          | .exn e => ⟨gr.invoked, some (.ok r), false, .failed e⟩
          | .ok _review_comments =>
              if callBinds post_review_params orchestrate_post_kwargs then
                match post with
                | .ok _ => ⟨gr.invoked, some (.ok r), true,
                            .completed "Review posted successfully."⟩
                | .exn e => ⟨gr.invoked, some (.ok r), true, .failed e⟩
              else
                ⟨gr.invoked, some (.ok r), true,
                 .failed "TypeError: post_review() missing 1 required positional argument: diff".toList⟩

/-! ## GitHub access layer (`src/services/github_service.py`) -/

/-- The review payload built by `GitHubService.post_review` (lines 168–181):
`comments` is `none` when the key is never added to the dictionary. -/
structure ReviewPayload where
  commit_id : List Char
  body : String
  event : String
  comments : Option (List OutComment)
  deriving DecidableEq

/-- The payload-construction part of `GitHubService.post_review`: parse the
diff, validate the proposed comments against it, and attach the `comments`
key only when the validated list is non-empty (`if valid_comments:`).
`head_sha` is the commit id the method resolved from the PR beforehand. -/
def build_review_payload (head_sha : List Char) (review_summary : String)
    (review_comments : List Candidate) (diff : String) : ReviewPayload :=
  let dp := DiffParser.parse diff
  let valid := validate_and_filter_comments review_comments dp
  { commit_id := head_sha, body := review_summary, event := "COMMENT",
    comments := if valid.isEmpty then Option.none else some valid }

/-- Token-relevant state of one `GitHubService` instance: the cached
`self._token` (tokens are numbered by the exchange that produced them) and
how many installation-token exchanges have been performed. -/
structure GhState where
  token : Option Nat
  exchanges : Nat
  deriving DecidableEq

/-- A freshly constructed service (`self._token = None`). -/
def freshGhState : GhState := ⟨Option.none, 0⟩

/-- `_authenticate` as executed by a call that runs to completion with no
interleaved sibling (the sequential case): check `if not self._token`, and
if unset perform one exchange and store the token. -/
def authSequential (s : GhState) : GhState :=
  if s.token.isNone then ⟨some s.exchanges, s.exchanges + 1⟩ else s

/-- The Fetch stage's `asyncio.gather(pr_details_task, pr_diff_task)`:
cooperative interleaving of the two calls' `_authenticate`.  Each task runs
up to its first genuine suspension — the token-exchange HTTP POST inside
`get_installation_access_token` — before the other proceeds, so the
`if not self._token` check of the second task still sees `None`; each task
assigns `self._token` only after its own POST resumes. -/
def gatherFetchPair (s : GhState) : GhState :=
  let needA := s.token.isNone
  let s1 := if needA then { s with exchanges := s.exchanges + 1 } else s
  let needB := s1.token.isNone
  let s2 := if needB then { s1 with exchanges := s1.exchanges + 1 } else s1
  let s3 := if needA then { s2 with token := some s.exchanges } else s2
  if needB then { s3 with token := some (s.exchanges + 1) } else s3

/-! ## Helper lemmas about the parser -/

/-- The key list of a commentable map. -/
def keysOf (d : List (Nat × List Char)) : List Nat := d.map Prod.fst

theorem keysOf_append (d e : List (Nat × List Char)) :
    keysOf (d ++ e) = keysOf d ++ keysOf e := by
  simp [keysOf]

theorem dictInsert_of_not_mem {d : List (Nat × List Char)} {k : Nat} (v : List Char)
    (h : k ∉ keysOf d) : dictInsert d k v = d ++ [(k, v)] := by
  have hany : d.any (fun kv => kv.1 == k) = false := by
    rw [Bool.eq_false_iff]
    intro hcon
    obtain ⟨kv, hkv, hbeq⟩ := List.any_eq_true.mp hcon
    exact h (List.mem_map.mpr ⟨kv, hkv, eq_of_beq hbeq⟩)
  simp [dictInsert, hany]

theorem keysOf_dictInsert_update {d : List (Nat × List Char)} {k : Nat} (v : List Char) :
    keysOf (d.map (fun kv => if kv.1 == k then (k, v) else kv)) = keysOf d := by
  simp only [keysOf, List.map_map]
  apply List.map_congr_left
  intro kv _
  by_cases hk : kv.1 = k
  · simp [hk]
  · simp [hk]

theorem mem_keysOf_dictInsert {d : List (Nat × List Char)} {k : Nat} {v : List Char}
    {n : Nat} : n ∈ keysOf (dictInsert d k v) ↔ n ∈ keysOf d ∨ n = k := by
  by_cases hany : d.any (fun kv => kv.1 == k) = true
  · have hk : k ∈ keysOf d := by
      obtain ⟨kv, hkv, hbeq⟩ := List.any_eq_true.mp hany
      exact List.mem_map.mpr ⟨kv, hkv, eq_of_beq hbeq⟩
    simp only [dictInsert, hany, if_true, keysOf_dictInsert_update]
    constructor
    · exact Or.inl
    · rintro (h | rfl)
      · exact h
      · exact hk
  · simp only [dictInsert, if_neg hany]
    simp [keysOf]

/-- `n` is the line number of an added line recorded in one of the hunks. -/
def recIn (n : Nat) (hs : List Hunk) : Prop :=
  ∃ h ∈ hs, ∃ l ∈ h.lines, l.line_number = n

theorem recIn_append {n : Nat} {xs ys : List Hunk} :
    recIn n (xs ++ ys) ↔ recIn n xs ∨ recIn n ys := by
  simp [recIn, List.mem_append, or_and_right, exists_or]

/-- A parsed `FileDiff` satisfies the source invariant iff its commentable
keys are exactly the line numbers recorded across its hunks. -/
def fileOK (f : FileDiff) : Prop :=
  ∀ n, n ∈ keysOf f.commentable_lines ↔ recIn n f.hunks

/-- The in-progress analogue: the invariant holds of the file as it would be
if closed now. -/
def curOK (c : CurFile) : Prop := fileOK (closeFile c)

/-- The whole-state invariant. -/
def stOK (st : PSt) : Prop :=
  (∀ f ∈ st.files, fileOK f) ∧ (∀ c, st.cur = some c → curOK c)

/-! Branch equations for `step`, one per source branch. -/

theorem step_diffgit {line : List Char} (st : PSt)
    (h : pfx "diff --git" line = true) :
    step st line =
      ⟨st.files ++ (st.cur.map closeFile).toList, some ⟨Option.none, [], Option.none, []⟩⟩ := by
  simp [step, h]

theorem step_path {line : List Char} {st : PSt} {c : CurFile}
    (h1 : pfx "diff --git" line = false) (h2 : pfx "+++ b/" line = true)
    (hcur : st.cur = some c) :
    step st line = { st with cur := some { c with path := some (line.drop 6) } } := by
  simp [step, h1, h2, hcur]

theorem step_hdr_valid {line : List Char} {st : PSt} {c : CurFile} {ns : Nat}
    (h1 : pfx "diff --git" line = false) (h2 : pfx "+++ b/" line = false)
    (h3 : pfx "@@" line = true) (hm : matchHunkHeader line = some ns)
    (hcur : st.cur = some c) :
    step st line = { st with cur := some { c with
        closed := c.closed ++ c.pending.toList, pending := some ⟨ns, ns, []⟩ } } := by
  simp [step, h1, h2, h3, hm, hcur]

theorem step_hdr_invalid {line : List Char} (st : PSt)
    (h1 : pfx "diff --git" line = false) (h2 : pfx "+++ b/" line = false)
    (h3 : pfx "@@" line = true) (hm : matchHunkHeader line = Option.none) :
    step st line = st := by
  simp [step, h1, h2, h3, hm]

theorem step_added {line : List Char} {st : PSt} {c : CurFile} {h : Hunk}
    (h1 : pfx "diff --git" line = false) (h2 : pfx "+++ b/" line = false)
    (h3 : pfx "@@" line = false) (hcur : st.cur = some c) (hp : c.pending = some h)
    (h4 : pfx "+" line = true) (h5 : pfx "+++" line = false) :
    step st line = { st with cur := some { c with
        comm := dictInsert c.comm h.current_line (line.drop 1),
        pending := some ⟨h.new_start, h.current_line + 1,
                         h.lines ++ [⟨h.current_line, line.drop 1⟩]⟩ } } := by
  simp [step, h1, h2, h3, hcur, hp, h4, h5]

theorem step_removed {line : List Char} {st : PSt} {c : CurFile} {h : Hunk}
    (h1 : pfx "diff --git" line = false) (h2 : pfx "+++ b/" line = false)
    (h3 : pfx "@@" line = false) (hcur : st.cur = some c) (hp : c.pending = some h)
    (h4 : pfx "+" line = false ∨ pfx "+++" line = true)
    (h5 : pfx "-" line = true) (h6 : pfx "---" line = false) :
    step st line = st := by
  rcases h4 with h4 | h4 <;> simp [step, h1, h2, h3, hcur, hp, h4, h5, h6]

theorem step_context {line : List Char} {st : PSt} {c : CurFile} {h : Hunk}
    (h1 : pfx "diff --git" line = false) (h2 : pfx "+++ b/" line = false)
    (h3 : pfx "@@" line = false) (hcur : st.cur = some c) (hp : c.pending = some h)
    (h4 : pfx "+" line = false ∨ pfx "+++" line = true)
    (h5 : pfx "-" line = false ∨ pfx "---" line = true)
    (h6 : pfx " " line = true) :
    step st line = { st with cur := some { c with
        pending := some { h with current_line := h.current_line + 1 } } } := by
  rcases h4 with h4 | h4 <;> rcases h5 with h5 | h5 <;>
    simp [step, h1, h2, h3, hcur, hp, h4, h5, h6]

theorem step_other {line : List Char} {st : PSt} {c : CurFile} {h : Hunk}
    (h1 : pfx "diff --git" line = false) (h2 : pfx "+++ b/" line = false)
    (h3 : pfx "@@" line = false) (hcur : st.cur = some c) (hp : c.pending = some h)
    (h4 : pfx "+" line = false ∨ pfx "+++" line = true)
    (h5 : pfx "-" line = false ∨ pfx "---" line = true)
    (h6 : pfx " " line = false) :
    step st line = st := by
  rcases h4 with h4 | h4 <;> rcases h5 with h5 | h5 <;>
    simp [step, h1, h2, h3, hcur, hp, h4, h5, h6]

theorem step_nohunk {line : List Char} {st : PSt}
    (h1 : pfx "diff --git" line = false) (h2 : pfx "+++ b/" line = false)
    (h3 : pfx "@@" line = false)
    (hcp : st.cur = Option.none ∨ ∃ c, st.cur = some c ∧ c.pending = Option.none) :
    step st line = st := by
  rcases hcp with hcur | ⟨c, hcur, hp⟩
  · simp [step, h1, h2, h3, hcur]
  · simp [step, h1, h2, h3, hcur, hp]

theorem step_path_none {line : List Char} {st : PSt}
    (h1 : pfx "diff --git" line = false) (h2 : pfx "+++ b/" line = true)
    (hcur : st.cur = Option.none) : step st line = st := by
  simp [step, h1, h2, hcur]

theorem step_hdr_valid_none {line : List Char} {st : PSt} {ns : Nat}
    (h1 : pfx "diff --git" line = false) (h2 : pfx "+++ b/" line = false)
    (h3 : pfx "@@" line = true) (hm : matchHunkHeader line = some ns)
    (hcur : st.cur = Option.none) : step st line = st := by
  simp [step, h1, h2, h3, hm, hcur]

theorem recIn_single_empty {n : Nat} {ns cl : Nat} :
    ¬ recIn n [⟨ns, cl, []⟩] := by
  simp [recIn]

theorem boolFT (b : Bool) : b = false ∨ b = true := by
  cases b
  · exact Or.inl rfl
  · exact Or.inr rfl

/-- The recorded line numbers of a list of hunk lines, as one atom. -/
def linesHas (ls : List HunkLine) (n : Nat) : Prop :=
  ∃ l ∈ ls, l.line_number = n

theorem recIn_singleton {n : Nat} {h : Hunk} :
    recIn n [h] ↔ linesHas h.lines n := by
  simp [recIn, linesHas]

theorem recIn_singleton_mk {n a b : Nat} {ls : List HunkLine} :
    recIn n [⟨a, b, ls⟩] ↔ linesHas ls n := by
  simp [recIn, linesHas]

theorem linesHas_snoc {ls : List HunkLine} {cl : Nat} {v : List Char} {n : Nat} :
    linesHas (ls ++ [⟨cl, v⟩]) n ↔ linesHas ls n ∨ cl = n := by
  simp [linesHas, or_and_right, exists_or]

theorem added_case_iff (c : CurFile) (h : Hunk) (v : List Char) (n : Nat)
    (h0 : n ∈ keysOf c.comm ↔ recIn n (c.closed ++ [h])) :
    n ∈ keysOf (dictInsert c.comm h.current_line v) ↔
      recIn n (c.closed ++ [⟨h.new_start, h.current_line + 1,
                             h.lines ++ [⟨h.current_line, v⟩]⟩]) := by
  rw [mem_keysOf_dictInsert, h0]
  rw [recIn_append, recIn_append, recIn_singleton, recIn_singleton_mk]
  rw [linesHas_snoc]
  rw [@eq_comm _ n h.current_line]
  tauto

theorem stOK_step (st : PSt) (line : List Char) (hok : stOK st) : stOK (step st line) := by
  obtain ⟨hf, hc⟩ := hok
  by_cases h1 : pfx "diff --git" line
  · rw [step_diffgit st h1]
    refine ⟨?_, ?_⟩
    · intro f hmem
      rcases List.mem_append.mp hmem with hin | hin
      · exact hf f hin
      · cases hcur : st.cur with
        | none => rw [hcur] at hin; simp at hin
        | some c =>
            rw [hcur] at hin
            simp at hin
            rw [hin]
            exact hc c hcur
    · rintro c hcc
      simp only [Option.some.injEq] at hcc
      subst hcc
      intro n
      simp [closeFile, keysOf, recIn]
  · rw [Bool.not_eq_true] at h1
    by_cases h2 : pfx "+++ b/" line
    · cases hcur : st.cur with
      | none => rw [step_path_none h1 h2 hcur]; exact ⟨hf, hc⟩
      | some c =>
          rw [step_path h1 h2 hcur]
          refine ⟨hf, ?_⟩
          rintro c' hcc
          simp only [Option.some.injEq] at hcc
          subst hcc
          have hold := hc c hcur
          intro n
          simpa [curOK, fileOK, closeFile] using hold n
    · rw [Bool.not_eq_true] at h2
      by_cases h3 : pfx "@@" line
      · cases hm : matchHunkHeader line with
        | none => rw [step_hdr_invalid st h1 h2 h3 hm]; exact ⟨hf, hc⟩
        | some ns =>
            cases hcur : st.cur with
            | none => rw [step_hdr_valid_none h1 h2 h3 hm hcur]; exact ⟨hf, hc⟩
            | some c =>
                rw [step_hdr_valid h1 h2 h3 hm hcur]
                refine ⟨hf, ?_⟩
                rintro c' hcc
                simp only [Option.some.injEq] at hcc
                subst hcc
                have hold := hc c hcur
                intro n
                have h0 := hold n
                simp only [curOK, fileOK, closeFile] at h0 ⊢
                simp only [List.append_assoc]
                rw [recIn_append, recIn_append]
                simp only [Option.toList_some]
                constructor
                · intro hn
                  rcases (by simpa [recIn_append] using h0.mp hn) with hx | hx
                  · exact Or.inl hx
                  · exact Or.inr (Or.inl hx)
                · rintro (hx | hx | hx)
                  · exact h0.mpr (by rw [recIn_append]; exact Or.inl hx)
                  · exact h0.mpr (by rw [recIn_append]; exact Or.inr hx)
                  · exact absurd hx recIn_single_empty
      · rw [Bool.not_eq_true] at h3
        cases hcur : st.cur with
        | none => rw [step_nohunk h1 h2 h3 (Or.inl hcur)]; exact ⟨hf, hc⟩
        | some c =>
            cases hp : c.pending with
            | none => rw [step_nohunk h1 h2 h3 (Or.inr ⟨c, hcur, hp⟩)]; exact ⟨hf, hc⟩
            | some h =>
                by_cases h4 : pfx "+" line = true ∧ pfx "+++" line = false
                · rw [step_added h1 h2 h3 hcur hp h4.1 h4.2]
                  refine ⟨hf, ?_⟩
                  rintro c' hcc
                  simp only [Option.some.injEq] at hcc
                  subst hcc
                  have hold := hc c hcur
                  intro n
                  have h0 := hold n
                  simp only [curOK, fileOK, closeFile, hp, Option.toList_some] at h0 ⊢
                  exact added_case_iff c h (line.drop 1) n h0
                · have h4' : pfx "+" line = false ∨ pfx "+++" line = true := by
                    rcases boolFT (pfx "+" line) with ha | ha
                    · exact Or.inl ha
                    · rcases boolFT (pfx "+++" line) with hb | hb
                      · exact absurd ⟨ha, hb⟩ h4
                      · exact Or.inr hb
                  by_cases h5 : pfx "-" line = true ∧ pfx "---" line = false
                  · rw [step_removed h1 h2 h3 hcur hp h4' h5.1 h5.2]
                    exact ⟨hf, hc⟩
                  · have h5' : pfx "-" line = false ∨ pfx "---" line = true := by
                      rcases boolFT (pfx "-" line) with ha | ha
                      · exact Or.inl ha
                      · rcases boolFT (pfx "---" line) with hb | hb
                        · exact absurd ⟨ha, hb⟩ h5
                        · exact Or.inr hb
                    by_cases h6 : pfx " " line = true
                    · rw [step_context h1 h2 h3 hcur hp h4' h5' h6]
                      refine ⟨hf, ?_⟩
                      rintro c' hcc
                      simp only [Option.some.injEq] at hcc
                      subst hcc
                      have hold := hc c hcur
                      intro n
                      have h0 := hold n
                      simp only [curOK, fileOK, closeFile, hp, Option.toList_some] at h0 ⊢
                      rw [recIn_append, recIn_singleton] at h0 ⊢
                      exact h0
                    · have h6' : pfx " " line = false := by
                        rcases boolFT (pfx " " line) with ha | ha
                        · exact ha
                        · exact absurd ha h6
                      rw [step_other h1 h2 h3 hcur hp h4' h5' h6']
                      exact ⟨hf, hc⟩

theorem stOK_foldl (ls : List (List Char)) (st : PSt) (h : stOK st) :
    stOK (ls.foldl step st) := by
  induction ls generalizing st with
  | nil => exact h
  | cons l ls ih => exact ih _ (stOK_step st l h)

theorem stOK_init : stOK ⟨[], Option.none⟩ := by
  constructor
  · intro f hf
    simp at hf
  · intro c hc
    simp at hc

theorem fileOK_parseLines (ls : List (List Char)) (f : FileDiff)
    (hf : f ∈ parseLines ls) : fileOK f := by
  obtain ⟨h1, h2⟩ := stOK_foldl ls ⟨[], Option.none⟩ stOK_init
  unfold parseLines finishP at hf
  rcases List.mem_append.mp hf with hin | hin
  · exact h1 f hin
  · cases hcur : (ls.foldl step ⟨[], Option.none⟩).cur with
    | none => rw [hcur] at hin; simp at hin
    | some c =>
        rw [hcur] at hin
        by_cases hp : pathTruthy c.path = true
        · simp only [hp, if_true, List.mem_singleton] at hin
          rw [hin]
          exact h2 c hcur
        · simp only [Bool.not_eq_true] at hp
          simp [hp] at hin

/-- Modelled from the spec: the hunk-cursor replay described in §4.1 and
claim C1 — an added line (`+`, not `+++`) is recorded at the current cursor
value and advances the cursor, a removed line (`-`, not `---`) does not
advance it, a context line (space) advances it without a record, and any
other line leaves the replay unchanged. -/
def specReplayKeys (cursor : Nat) : List (List Char) → List Nat
  | [] => []
  | l :: ls =>
      if pfx "+" l && !pfx "+++" l then cursor :: specReplayKeys (cursor + 1) ls
      else if pfx "-" l && !pfx "---" l then specReplayKeys cursor ls
      else if pfx " " l then specReplayKeys (cursor + 1) ls
      else specReplayKeys cursor ls

theorem replay_foldl (body : List (List Char)) :
    ∀ (path : Option (List Char)) (closed : List Hunk) (ns cl : Nat)
      (hlines : List HunkLine) (comm : List (Nat × List Char)),
    (∀ l ∈ body, pfx "diff --git" l = false ∧ pfx "+++ b/" l = false ∧
                 pfx "@@" l = false) →
    (∀ k ∈ keysOf comm, k < cl) →
    ∃ (h' : Hunk) (comm' : List (Nat × List Char)),
      body.foldl step ⟨[], some ⟨path, closed, some ⟨ns, cl, hlines⟩, comm⟩⟩
        = ⟨[], some ⟨path, closed, some h', comm'⟩⟩
      ∧ keysOf comm' = keysOf comm ++ specReplayKeys cl body
      ∧ (∀ k ∈ keysOf comm', k < h'.current_line) := by
  induction body with
  | nil =>
      intro path closed ns cl hlines comm _ hlt
      exact ⟨⟨ns, cl, hlines⟩, comm, rfl, by simp [specReplayKeys], hlt⟩
  | cons l ls ih =>
      intro path closed ns cl hlines comm hb hlt
      obtain ⟨hb1, hb2, hb3⟩ := hb l (List.mem_cons_self l ls)
      have hbls : ∀ l' ∈ ls, pfx "diff --git" l' = false ∧ pfx "+++ b/" l' = false ∧
          pfx "@@" l' = false := fun l' hl' => hb l' (List.mem_cons_of_mem l hl')
      by_cases h4 : pfx "+" l = true ∧ pfx "+++" l = false
      · -- added line
        have hknot : cl ∉ keysOf comm := fun hk => absurd (hlt cl hk) (lt_irrefl cl)
        have hd : dictInsert comm cl l.tail = comm ++ [(cl, l.tail)] :=
          dictInsert_of_not_mem _ hknot
        have hlt' : ∀ k ∈ keysOf (comm ++ [(cl, l.tail)]), k < cl + 1 := by
          intro k hk
          rw [keysOf_append] at hk
          rcases List.mem_append.mp hk with hk | hk
          · exact Nat.lt_succ_of_lt (hlt k hk)
          · simp [keysOf] at hk
            rw [hk]
            exact Nat.lt_succ_self cl
        obtain ⟨h', comm', heq, hkeys, hbound⟩ :=
          ih path closed ns (cl + 1) (hlines ++ [⟨cl, l.tail⟩])
            (comm ++ [(cl, l.tail)]) hbls hlt'
        refine ⟨h', comm', ?_, ?_, hbound⟩
        · rw [List.foldl_cons, step_added hb1 hb2 hb3 rfl rfl h4.1 h4.2]
          simpa [hd] using heq
        · rw [hkeys, keysOf_append]
          simp only [specReplayKeys, h4.1, h4.2, Bool.and_self, Bool.not_false,
                     Bool.and_true, if_true, keysOf]
          simp [List.append_assoc]
      · have h4' : pfx "+" l = false ∨ pfx "+++" l = true := by
          rcases boolFT (pfx "+" l) with ha | ha
          · exact Or.inl ha
          · rcases boolFT (pfx "+++" l) with hb' | hb'
            · exact absurd ⟨ha, hb'⟩ h4
            · exact Or.inr hb'
        have hspec4 : (pfx "+" l && !pfx "+++" l) = false := by
          rcases h4' with ha | ha <;> simp [ha]
        by_cases h5 : pfx "-" l = true ∧ pfx "---" l = false
        · -- removed line: no state change
          obtain ⟨h', comm', heq, hkeys, hbound⟩ :=
            ih path closed ns cl hlines comm hbls hlt
          refine ⟨h', comm', ?_, ?_, hbound⟩
          · rw [List.foldl_cons, step_removed hb1 hb2 hb3 rfl rfl h4' h5.1 h5.2]
            exact heq
          · rw [hkeys]
            simp only [specReplayKeys, hspec4, Bool.false_eq_true, if_false,
                       h5.1, h5.2, Bool.not_false, Bool.and_self, if_true]
        · have h5' : pfx "-" l = false ∨ pfx "---" l = true := by
            rcases boolFT (pfx "-" l) with ha | ha
            · exact Or.inl ha
            · rcases boolFT (pfx "---" l) with hb' | hb'
              · exact absurd ⟨ha, hb'⟩ h5
              · exact Or.inr hb'
          have hspec5 : (pfx "-" l && !pfx "---" l) = false := by
            rcases h5' with ha | ha <;> simp [ha]
          by_cases h6 : pfx " " l = true
          · -- context line: cursor advances
            have hlt2 : ∀ k ∈ keysOf comm, k < cl + 1 :=
              fun k hk => Nat.lt_succ_of_lt (hlt k hk)
            obtain ⟨h', comm', heq, hkeys, hbound⟩ :=
              ih path closed ns (cl + 1) hlines comm hbls hlt2
            refine ⟨h', comm', ?_, ?_, hbound⟩
            · rw [List.foldl_cons, step_context hb1 hb2 hb3 rfl rfl h4' h5' h6]
              exact heq
            · rw [hkeys]
              simp only [specReplayKeys, hspec4, hspec5, Bool.false_eq_true,
                         if_false, h6, if_true]
          · have h6' : pfx " " l = false := by
              rcases boolFT (pfx " " l) with ha | ha
              · exact ha
              · exact absurd ha h6
            obtain ⟨h', comm', heq, hkeys, hbound⟩ :=
              ih path closed ns cl hlines comm hbls hlt
            refine ⟨h', comm', ?_, ?_, hbound⟩
            · rw [List.foldl_cons, step_other hb1 hb2 hb3 rfl rfl h4' h5' h6']
              exact heq
            · rw [hkeys]
              simp only [specReplayKeys, hspec4, hspec5, h6', Bool.false_eq_true,
                         if_false]

theorem stripChars_some {p : List Char} : ∀ {l r : List Char},
    stripChars p l = some r → l = p ++ r := by
  induction p with
  | nil =>
      intro l r h
      simp [stripChars] at h
      simp [h]
  | cons a ps ih =>
      intro l r h
      cases l with
      | nil => simp [stripChars] at h
      | cons c cs =>
          by_cases hac : a = c
          · simp only [stripChars, if_pos hac] at h
            rw [← hac]
            simpa using ih h
          · simp [stripChars, hac] at h

theorem matchHunkHeader_shape {l : List Char} {s : Nat}
    (h : matchHunkHeader l = some s) : ∃ r, l = '@' :: '@' :: ' ' :: '-' :: r := by
  unfold matchHunkHeader at h
  cases hs : stripChars "@@ -".toList l with
  | none => rw [hs] at h; simp at h
  | some r => exact ⟨r, by simpa using stripChars_some hs⟩

theorem hdr_pfx_at {l : List Char} {s : Nat} (h : matchHunkHeader l = some s) :
    pfx "@@" l = true ∧ pfx "diff --git" l = false ∧ pfx "+++ b/" l = false := by
  obtain ⟨r, hr⟩ := matchHunkHeader_shape h
  subst hr
  refine ⟨?_, ?_, ?_⟩ <;> simp [pfx, List.isPrefixOf]

theorem singleHunk_keys (d : String) (hdr : List Char) (s : Nat)
    (body : List (List Char))
    (hsplit : pyLines d = "diff --git a/f b/f".toList :: "+++ b/f".toList ::
                          hdr :: body)
    (hm : matchHunkHeader hdr = some s)
    (hbody : ∀ l ∈ body, pfx "diff --git" l = false ∧ pfx "+++ b/" l = false ∧
                         pfx "@@" l = false) :
    (DiffParser.parse d).files.map (fun f => keysOf f.commentable_lines)
      = [specReplayKeys s body] := by
  obtain ⟨hh3, hh1, hh2⟩ := hdr_pfx_at hm
  have e1 : step ⟨[], Option.none⟩ ("diff --git a/f b/f".toList)
      = ⟨[], some ⟨Option.none, [], Option.none, []⟩⟩ := by decide
  have e2 : step ⟨[], some ⟨Option.none, [], Option.none, []⟩⟩ ("+++ b/f".toList)
      = ⟨[], some ⟨some ['f'], [], Option.none, []⟩⟩ := by decide
  have e3 : step ⟨[], some ⟨some ['f'], [], Option.none, []⟩⟩ hdr
      = ⟨[], some ⟨some ['f'], [], some ⟨s, s, []⟩, []⟩⟩ := by
    rw [step_hdr_valid hh1 hh2 hh3 hm rfl]
    simp
  obtain ⟨h', comm', heq, hkeys, _⟩ :=
    replay_foldl body (some ['f']) [] s s [] [] hbody (by simp [keysOf])
  unfold DiffParser.parse parseLines
  rw [hsplit]
  rw [List.foldl_cons, e1, List.foldl_cons, e2, List.foldl_cons, e3, heq]
  unfold finishP
  simp only [keysOf] at hkeys
  simp [closeFile, pathTruthy, keysOf, hkeys]

theorem specReplayKeys_replicate (k : Nat) : ∀ s : Nat,
    specReplayKeys s (List.replicate k ('+' :: 'x' :: [])) = List.range' s k := by
  induction k with
  | zero => intro s; simp [specReplayKeys]
  | succ k ih =>
      intro s
      have c1 : pfx "+" ('+' :: 'x' :: []) = true := by decide
      have c2 : pfx "+++" ('+' :: 'x' :: []) = false := by decide
      rw [List.replicate_succ]
      simp only [specReplayKeys, c1, c2, Bool.not_false, Bool.and_self, if_true]
      rw [ih (s + 1), List.range'_succ s k 1]

/-- Claim C1: for every unified-diff text, each parsed file's commentable-map
keys are exactly the new-side line numbers of the added lines recorded across
its hunks (part 1); for a single-file, single-hunk diff whose hunk body is an
arbitrary run of non-header lines, the key list equals the spec's cursor
replay of that body from the header's declared new-start (part 2); in
particular, for a hunk of `k` consecutive added lines starting at
`new_start = s`, the keys are exactly `s, s+1, …, s+k-1` (part 3). -/
theorem c1_commentable_keys_replay :
    (∀ (diff : String), ∀ f ∈ (DiffParser.parse diff).files, ∀ n : Nat,
        n ∈ keysOf f.commentable_lines ↔ recIn n f.hunks)
  ∧ (∀ (d : String) (hdr : List Char) (s : Nat) (body : List (List Char)),
        pyLines d = "diff --git a/f b/f".toList :: "+++ b/f".toList ::
                    hdr :: body →
        matchHunkHeader hdr = some s →
        (∀ l ∈ body, pfx "diff --git" l = false ∧ pfx "+++ b/" l = false ∧
                     pfx "@@" l = false) →
        (DiffParser.parse d).files.map (fun f => keysOf f.commentable_lines)
          = [specReplayKeys s body])
  ∧ (∀ (d : String) (hdr : List Char) (s k : Nat),
        pyLines d = "diff --git a/f b/f".toList :: "+++ b/f".toList ::
                    hdr :: List.replicate k ('+' :: 'x' :: []) →
        matchHunkHeader hdr = some s →
        (DiffParser.parse d).files.map (fun f => keysOf f.commentable_lines)
          = [List.range' s k]) := by
  refine ⟨?_, ?_, ?_⟩
  · intro diff f hf n
    exact fileOK_parseLines _ f hf n
  · intro d hdr s body hsplit hm hbody
    exact singleHunk_keys d hdr s body hsplit hm hbody
  · intro d hdr s k hsplit hm
    have hbody : ∀ l ∈ List.replicate k ('+' :: 'x' :: []),
        pfx "diff --git" l = false ∧ pfx "+++ b/" l = false ∧
        pfx "@@" l = false := by
      intro l hl
      rw [List.eq_of_mem_replicate hl]
      refine ⟨by decide, by decide, by decide⟩
    rw [singleHunk_keys d hdr s _ hsplit hm hbody, specReplayKeys_replicate k s]

/-- Witness for C1: each part applied at a concrete diff, all hypotheses
discharged by computation. -/
theorem c1_commentable_keys_replay_witness :
    (3 ∈ keysOf (FileDiff.mk (some ['f'])
        [⟨3, 5, [⟨3, ['x']⟩, ⟨4, ['x']⟩]⟩] [(3, ['x']), (4, ['x'])]).commentable_lines
      ↔ recIn 3 (FileDiff.mk (some ['f'])
        [⟨3, 5, [⟨3, ['x']⟩, ⟨4, ['x']⟩]⟩] [(3, ['x']), (4, ['x'])]).hunks)
  ∧ ((DiffParser.parse "diff --git a/f b/f\n+++ b/f\n@@ -1 +3 @@\n+a\n ctx\n-z\n+b").files.map
        (fun f => keysOf f.commentable_lines)
      = [specReplayKeys 3 ["+a".toList, " ctx".toList, "-z".toList, "+b".toList]])
  ∧ ((DiffParser.parse "diff --git a/f b/f\n+++ b/f\n@@ -1 +3 @@\n+x\n+x").files.map
        (fun f => keysOf f.commentable_lines)
      = [List.range' 3 2]) :=
  ⟨c1_commentable_keys_replay.1 "diff --git a/f b/f\n+++ b/f\n@@ -1 +3 @@\n+x\n+x"
      (FileDiff.mk (some ['f'])
        [⟨3, 5, [⟨3, ['x']⟩, ⟨4, ['x']⟩]⟩] [(3, ['x']), (4, ['x'])]) (by decide) 3,
   c1_commentable_keys_replay.2.1 "diff --git a/f b/f\n+++ b/f\n@@ -1 +3 @@\n+a\n ctx\n-z\n+b"
      ("@@ -1 +3 @@".toList) 3 ["+a".toList, " ctx".toList, "-z".toList, "+b".toList]
      (by decide) (by decide) (by decide),
   c1_commentable_keys_replay.2.2 "diff --git a/f b/f\n+++ b/f\n@@ -1 +3 @@\n+x\n+x"
      ("@@ -1 +3 @@".toList) 3 2 (by decide) (by decide)⟩

/-! ## Validator lemmas (claims C2 and C7) -/

theorem validStep_eq (dp : DiffParser) (acc : List OutComment) (c : Candidate) :
    validStep dp acc c = if acceptsCand dp c then acc ++ [normCand c] else acc := by
  cases c with
  | nonDict t => simp [validStep, acceptsCand]
  | dict fs =>
      rcases boolFT (truthy (dictGet fs "path")) with h1 | h1 <;>
      rcases boolFT (truthy (dictGet fs "line")) with h2 | h2 <;>
      rcases boolFT (truthy (dictGet fs "body")) with h3 | h3 <;>
      rcases boolFT (isIntVal (dictGet fs "line")) with h4 | h4 <;>
      rcases boolFT (dp.is_line_commentable (dictGet fs "path") (dictGet fs "line"))
        with h5 | h5 <;>
      simp [validStep, acceptsCand, normCand, h1, h2, h3, h4, h5]

theorem validate_eq_filterMap (cs : List Candidate) (dp : DiffParser) :
    validate_and_filter_comments cs dp = (cs.filter (acceptsCand dp)).map normCand := by
  suffices h : ∀ acc : List OutComment,
      cs.foldl (validStep dp) acc = acc ++ (cs.filter (acceptsCand dp)).map normCand by
    simpa [validate_and_filter_comments] using h []
  induction cs with
  | nil =>
      intro acc
      simp
  | cons c cs ih =>
      intro acc
      rw [List.foldl_cons, validStep_eq]
      by_cases hc : acceptsCand dp c = true
      · rw [if_pos hc, ih]
        simp [List.filter_cons, hc]
      · have hc' : acceptsCand dp c = false := by
          rcases boolFT (acceptsCand dp c) with h | h
          · exact h
          · exact absurd h hc
        rw [if_neg (by simp [hc']), ih]
        simp [List.filter_cons, hc']

/-- Counterexample to claim C2 as stated: against the diff
`diff --git a/f b/f`, `+++ b/f`, `@@ -0 +0 @@`, `+x`, the candidate
`{"path": "f", "line": 0, "body": "y"}` is a record carrying `path`, `line`
and `body`, its `line` is an integer, and `is_line_commentable("f", 0)`
holds — yet the validator rejects it, because the source gate
`if not all([path, line, body])` treats the integer `0` as falsy. -/
theorem c2_validator_counterexample :
    validate_and_filter_comments
        [Candidate.dict [("path", .str ['f']), ("line", .int 0), ("body", .str ['y'])]]
        (DiffParser.parse "diff --git a/f b/f\n+++ b/f\n@@ -0 +0 @@\n+x") = []
    ∧ (DiffParser.parse "diff --git a/f b/f\n+++ b/f\n@@ -0 +0 @@\n+x").is_line_commentable
        (.str ['f']) (.int 0) = true
    ∧ isIntVal (.int 0) = true := by
  refine ⟨by decide, by decide, by decide⟩

/-- Claim C2 (amended): `validate_and_filter_comments` is the stable,
order-preserving filter that accepts a candidate exactly when it is a dict
whose `path`, `line` and `body` values are all truthy (non-`None`, non-zero,
non-empty), its `line` is an integer, and the line is commentable for the
path; each accepted candidate is emitted, in input order, as the normalized
comment dictionary, and every rejected candidate is dropped (the function is
total — no exception escapes). -/
theorem c2_validator_stable_filter :
    ∀ (cands : List Candidate) (dp : DiffParser),
      validate_and_filter_comments cands dp
          = (cands.filter (acceptsCand dp)).map normCand
        ∧ List.Sublist (cands.filter (acceptsCand dp)) cands :=
  fun cands dp => ⟨validate_eq_filterMap cands dp, List.filter_sublist cands⟩

/-- Counterexample to claim C7 as stated: a candidate that supplies
`"side": "LEFT"` is accepted and its `LEFT` side appears verbatim in the
validated output — the validator does not force `RIGHT` on supplied sides. -/
theorem c7_side_counterexample :
    (validate_and_filter_comments
        [Candidate.dict [("path", .str ['f']), ("line", .int 1), ("body", .str ['y']),
                         ("side", .str "LEFT".toList)]]
        (DiffParser.parse "diff --git a/f b/f\n+++ b/f\n@@ -1 +1 @@\n+x")).map
      (fun o => o.side) = [.str "LEFT".toList] := by
  decide

/-- Claim C7 (amended): every comment in the validated output takes its
`side` from its source candidate via `comment.get("side", "RIGHT")` — a
candidate that omits the key is normalized to `"RIGHT"`, while a supplied
value (of any content) is passed through unchanged. -/
theorem c7_side_normalization :
    ∀ (cands : List Candidate) (dp : DiffParser) (o : OutComment),
      o ∈ validate_and_filter_comments cands dp →
      ∃ fs, Candidate.dict fs ∈ cands ∧
        o.side = dictGetD fs "side" (.str "RIGHT".toList) := by
  intro cands dp o ho
  rw [validate_eq_filterMap] at ho
  obtain ⟨c, hc, hno⟩ := List.mem_map.mp ho
  obtain ⟨hmem, hacc⟩ := List.mem_filter.mp hc
  cases c with
  | nonDict t => simp [acceptsCand] at hacc
  | dict fs =>
      refine ⟨fs, hmem, ?_⟩
      rw [← hno]
      rfl

/-- Witness for the amended C7 at a concrete input. -/
theorem c7_side_normalization_witness :
    ∃ fs, Candidate.dict fs ∈
        [Candidate.dict [("path", .str ['f']), ("line", .int 1), ("body", .str ['y']),
                         ("side", .str "LEFT".toList)]] ∧
      (OutComment.mk (.str ['f']) (.int 1) (.str "LEFT".toList) (.str ['y'])).side
        = dictGetD fs "side" (.str "RIGHT".toList) :=
  c7_side_normalization
    [Candidate.dict [("path", .str ['f']), ("line", .int 1), ("body", .str ['y']),
                     ("side", .str "LEFT".toList)]]
    (DiffParser.parse "diff --git a/f b/f\n+++ b/f\n@@ -1 +1 @@\n+x")
    (OutComment.mk (.str ['f']) (.int 1) (.str "LEFT".toList) (.str ['y']))
    (by decide)

/-! ## Malformed hunk headers (claim C5) and pathless files (claim C6) -/

theorem atat_not_other {m : List Char} (h : pfx "@@" m = true) :
    pfx "diff --git" m = false ∧ pfx "+++ b/" m = false := by
  unfold pfx at h
  obtain ⟨t, ht⟩ := List.isPrefixOf_iff_prefix.mp h
  rw [← ht]
  constructor <;> simp [pfx, List.isPrefixOf]

/-- Counterexample to claim C5 as stated: after the valid hunk
`@@ -1 +1 @@` and its added line `+a`, the malformed header `@@ bogus`
(which starts with `@@` but fails the numeric pattern) leaves the previous
hunk current, so the following `+b` IS attributed to that hunk and recorded
at line 2 of the file's commentable map. -/
theorem c5_malformed_header_counterexample :
    ((DiffParser.parse "diff --git a/f b/f\n+++ b/f\n@@ -1 +1 @@\n+a\n@@ bogus\n+b").files.map
        (fun f => keysOf f.commentable_lines) = [[1, 2]])
    ∧ pfx "@@" "@@ bogus".toList = true
    ∧ matchHunkHeader "@@ bogus".toList = Option.none := by
  refine ⟨by decide, by decide, by decide⟩

/-- Claim C5 (amended): a hunk-header line starting with `@@` that fails the
numeric pattern is a complete no-op — parsing is identical to parsing with
that line deleted.  In particular it opens no hunk, and the added/removed
lines that follow it are attributed exactly as if the malformed header were
absent: to the still-current previous hunk if one is open (and added lines
are then recorded in the commentable map), and to no hunk otherwise. -/
theorem c5_malformed_header_noop :
    ∀ (pre post : List (List Char)) (m : List Char),
      pfx "@@" m = true → matchHunkHeader m = Option.none →
      parseLines (pre ++ m :: post) = parseLines (pre ++ post) := by
  intro pre post m h3 hm
  obtain ⟨h1, h2⟩ := atat_not_other h3
  unfold parseLines
  rw [List.foldl_append, List.foldl_append, List.foldl_cons,
      step_hdr_invalid _ h1 h2 h3 hm]

/-- Witness for the amended C5 at a concrete input. -/
theorem c5_malformed_header_noop_witness :
    parseLines (["diff --git a/f b/f".toList, "+++ b/f".toList] ++
                "@@ bogus".toList :: ["+z".toList])
      = parseLines (["diff --git a/f b/f".toList, "+++ b/f".toList] ++ ["+z".toList]) :=
  c5_malformed_header_noop ["diff --git a/f b/f".toList, "+++ b/f".toList]
    ["+z".toList] "@@ bogus".toList (by decide) (by decide)

/-- Counterexample to claim C6 as stated: a file section with no `+++ b/`
marker that is closed by the next `diff --git` line IS appended to the
document, with a `None` path — the path check happens only at end of input. -/
theorem c6_pathless_file_counterexample :
    (DiffParser.parse "diff --git a/x b/x\ndiff --git a/y b/y\n+++ b/y").files.map
      (fun f => f.path) = [Option.none, some ['y']] := by
  decide

theorem step_keeps {st : PSt} {c : CurFile} {l : List Char}
    (h1 : pfx "diff --git" l = false) (h2 : pfx "+++ b/" l = false)
    (hcur : st.cur = some c) :
    ∃ c', step st l = ⟨st.files, some c'⟩ ∧ c'.path = c.path := by
  have hst : st = ⟨st.files, some c⟩ := by
    cases st with
    | mk fs cu =>
        simp only at hcur ⊢
        rw [hcur]
  by_cases h3 : pfx "@@" l = true
  · cases hm : matchHunkHeader l with
    | none =>
        refine ⟨c, ?_, rfl⟩
        rw [step_hdr_invalid st h1 h2 h3 hm, hst]
    | some ns =>
        refine ⟨⟨c.path, c.closed ++ c.pending.toList, some ⟨ns, ns, []⟩, c.comm⟩, ?_, rfl⟩
        rw [step_hdr_valid h1 h2 h3 hm hcur]
  · have h3' : pfx "@@" l = false := by
      rcases boolFT (pfx "@@" l) with ha | ha
      · exact ha
      · exact absurd ha h3
    cases hp : c.pending with
    | none =>
        refine ⟨c, ?_, rfl⟩
        rw [step_nohunk h1 h2 h3' (Or.inr ⟨c, hcur, hp⟩), hst]
    | some h =>
        by_cases h4 : pfx "+" l = true ∧ pfx "+++" l = false
        · refine ⟨⟨c.path, c.closed, some ⟨h.new_start, h.current_line + 1,
              h.lines ++ [⟨h.current_line, l.drop 1⟩]⟩,
              dictInsert c.comm h.current_line (l.drop 1)⟩, ?_, rfl⟩
          rw [step_added h1 h2 h3' hcur hp h4.1 h4.2]
        · have h4' : pfx "+" l = false ∨ pfx "+++" l = true := by
            rcases boolFT (pfx "+" l) with ha | ha
            · exact Or.inl ha
            · rcases boolFT (pfx "+++" l) with hb | hb
              · exact absurd ⟨ha, hb⟩ h4
              · exact Or.inr hb
          by_cases h5 : pfx "-" l = true ∧ pfx "---" l = false
          · refine ⟨c, ?_, rfl⟩
            rw [step_removed h1 h2 h3' hcur hp h4' h5.1 h5.2, hst]
          · have h5' : pfx "-" l = false ∨ pfx "---" l = true := by
              rcases boolFT (pfx "-" l) with ha | ha
              · exact Or.inl ha
              · rcases boolFT (pfx "---" l) with hb | hb
                · exact absurd ⟨ha, hb⟩ h5
                · exact Or.inr hb
            by_cases h6 : pfx " " l = true
            · refine ⟨⟨c.path, c.closed, some ⟨h.new_start, h.current_line + 1, h.lines⟩,
                  c.comm⟩, ?_, rfl⟩
              rw [step_context h1 h2 h3' hcur hp h4' h5' h6]
            · have h6' : pfx " " l = false := by
                rcases boolFT (pfx " " l) with ha | ha
                · exact ha
                · exact absurd ha h6
              refine ⟨c, ?_, rfl⟩
              rw [step_other h1 h2 h3' hcur hp h4' h5' h6', hst]

theorem pathless_fold (body : List (List Char)) :
    ∀ (st : PSt) (c : CurFile), st.cur = some c → c.path = Option.none →
    (∀ l ∈ body, pfx "diff --git" l = false ∧ pfx "+++ b/" l = false) →
    ∃ c', body.foldl step st = ⟨st.files, some c'⟩ ∧ c'.path = Option.none := by
  induction body with
  | nil =>
      intro st c hcur hpath _
      refine ⟨c, ?_, hpath⟩
      rw [List.foldl_nil]
      cases st with
      | mk fs cu =>
          simp only at hcur ⊢
          rw [hcur]
  | cons l ls ih =>
      intro st c hcur hpath hb
      obtain ⟨h1, h2⟩ := hb l (List.mem_cons_self l ls)
      obtain ⟨c', hstep, hp'⟩ := step_keeps h1 h2 hcur
      rw [List.foldl_cons, hstep]
      obtain ⟨c'', hfold, hp''⟩ :=
        ih ⟨st.files, some c'⟩ c' rfl (hp'.trans hpath)
          (fun l' hl' => hb l' (List.mem_cons_of_mem _ hl'))
      exact ⟨c'', by simpa using hfold, hp''⟩

/-- Claim C6 (amended): a file section whose path never resolves is excluded
from the document only when it is the last section (end of input); it then
contributes nothing.  Pathless files that do end up in the document (see the
counterexample) are invisible downstream: `get_all_files` lists only truthy
paths, and a commentable-line lookup by any truthy path value only ever
resolves to a file whose own path is truthy. -/
theorem c6_pathless_exclusion :
    (∀ (d : String) (body : List (List Char)),
        pyLines d = "diff --git a/x b/x".toList :: body →
        (∀ l ∈ body, pfx "diff --git" l = false ∧ pfx "+++ b/" l = false) →
        (DiffParser.parse d).files = [])
  ∧ (∀ (dp : DiffParser) (p : List Char), p ∈ dp.get_all_files → p ≠ [])
  ∧ (∀ (dp : DiffParser) (p : PyVal) (f : FileDiff), truthy p = true →
        dp.files.find? (fun f => pyEqPath f.path p) = some f →
        pathTruthy f.path = true) := by
  refine ⟨?_, ?_, ?_⟩
  · intro d body hsplit hb
    have e1 : step ⟨[], Option.none⟩ ("diff --git a/x b/x".toList)
        = ⟨[], some ⟨Option.none, [], Option.none, []⟩⟩ := by decide
    unfold DiffParser.parse parseLines
    rw [hsplit, List.foldl_cons, e1]
    obtain ⟨c', hfold, hp'⟩ :=
      pathless_fold body ⟨[], some ⟨Option.none, [], Option.none, []⟩⟩
        ⟨Option.none, [], Option.none, []⟩ rfl rfl hb
    rw [hfold]
    simp [finishP, hp', pathTruthy]
  · intro dp p hp
    obtain ⟨f, _, hf⟩ := List.mem_filterMap.mp hp
    by_cases ht : pathTruthy f.path = true
    · rw [if_pos ht] at hf
      rw [hf] at ht
      intro hnil
      rw [hnil] at ht
      simp [pathTruthy] at ht
    · simp only [Bool.not_eq_true] at ht
      rw [if_neg (by simp [ht])] at hf
      cases hf
  · intro dp p f hp hfind
    have hpred : pyEqPath f.path p = true := by
      simpa using List.find?_some hfind
    cases hpath : f.path with
    | none =>
        rw [hpath] at hpred
        cases p <;> simp_all [pyEqPath, truthy]
    | some cs =>
        cases p with
        | none => simp [truthy] at hp
        | int n => rw [hpath] at hpred; simp [pyEqPath] at hpred
        | str s =>
            rw [hpath] at hpred
            have hcs : cs = s := by simpa [pyEqPath] using hpred
            have hs : s ≠ [] := by simpa [truthy] using hp
            rw [hcs]
            cases s with
            | nil => exact absurd rfl hs
            | cons a as => simp [pathTruthy]

/-- Witness for the amended C6 at concrete inputs. -/
theorem c6_pathless_exclusion_witness :
    ((DiffParser.parse "diff --git a/x b/x\n@@ -1 +1 @@\n+a").files = [])
  ∧ (['y'] ≠ ([] : List Char))
  ∧ pathTruthy (FileDiff.mk (some ['y']) [] []).path = true :=
  ⟨c6_pathless_exclusion.1 "diff --git a/x b/x\n@@ -1 +1 @@\n+a"
      ["@@ -1 +1 @@".toList, "+a".toList] (by decide) (by decide),
   c6_pathless_exclusion.2.1
      (DiffParser.parse "diff --git a/x b/x\ndiff --git a/y b/y\n+++ b/y") ['y']
      (by decide),
   c6_pathless_exclusion.2.2
      (DiffParser.parse "diff --git a/x b/x\ndiff --git a/y b/y\n+++ b/y")
      (.str ['y']) (FileDiff.mk (some ['y']) [] []) (by decide) (by decide)⟩

/-! ## Sentinel short-circuit (claim C4) -/

/-- Counterexample to claim C4 as stated: a diff with no files at all (here
the empty diff) renders "No changes detected in diff.", which is not the
sentinel the orchestrator checks for, so the generation collaborator IS
invoked even though no file of the parsed diff has any commentable line. -/
theorem c4_no_files_counterexample :
    ((DiffParser.parse "").files = [])
    ∧ (DiffParser.parse "").get_added_lines_context = msgNoChanges
    ∧ msgNoChanges ≠ sentinelNoAdded
    ∧ (generate_review_for_pr "" (.returnsDict ⟨some "s", some []⟩)).invoked = true := by
  refine ⟨by decide, by decide, by decide, by decide⟩

theorem ctx_fold_skip (fs : List FileDiff) :
    ∀ acc, (∀ f ∈ fs, pathTruthy f.path = false ∨ f.commentable_lines = []) →
    fs.foldl ctxStep acc = acc := by
  induction fs with
  | nil =>
      intro acc _
      rfl
  | cons f fs ih =>
      intro acc hall
      have hskip : (!pathTruthy f.path || f.commentable_lines.isEmpty) = true := by
        rcases hall f (List.mem_cons_self f fs) with h | h
        · simp [h]
        · simp [h]
      rw [List.foldl_cons]
      rw [show ctxStep acc f = acc from by simp [ctxStep, hskip]]
      exact ih acc (fun f' hf' => hall f' (List.mem_cons_of_mem _ hf'))

/-- Claim C4 (amended): whenever the rendered context equals the sentinel
"No added lines found in diff." the generation collaborator is never invoked
and the run yields the fixed placeholder summary with zero comments; and the
sentinel is rendered whenever the parsed document is non-empty yet no file
has both a truthy path and a non-empty commentable map.  A diff with no
files at all renders a different, non-sentinel message and does not
short-circuit (see the counterexample). -/
theorem c4_sentinel_short_circuit :
    (∀ (diff : String) (g : GenOutcome),
        (DiffParser.parse diff).get_added_lines_context = sentinelNoAdded →
        (generate_review_for_pr diff g).invoked = false ∧
        (generate_review_for_pr diff g).result = .ok noAddedResp)
  ∧ (∀ (dp : DiffParser), dp.files ≠ [] →
        (∀ f ∈ dp.files, pathTruthy f.path = false ∨ f.commentable_lines = []) →
        dp.get_added_lines_context = sentinelNoAdded) := by
  constructor
  · intro diff g hctx
    have hcond : ((DiffParser.parse diff).get_added_lines_context.all Char.isWhitespace
        || (DiffParser.parse diff).get_added_lines_context == sentinelNoAdded) = true := by
      rw [hctx]
      simp
    constructor <;> simp [generate_review_for_pr, hcond]
  · intro dp hne hall
    unfold DiffParser.get_added_lines_context
    rw [if_neg (by simpa [List.isEmpty_iff] using hne)]
    rw [ctx_fold_skip dp.files [] hall]
    rfl

/-- Witness for the amended C4 at a concrete diff (one file, path resolved,
no added lines). -/
theorem c4_sentinel_short_circuit_witness :
    ((generate_review_for_pr "diff --git a/f b/f\n+++ b/f" .raises).invoked = false
      ∧ (generate_review_for_pr "diff --git a/f b/f\n+++ b/f" .raises).result
          = .ok noAddedResp)
  ∧ (DiffParser.parse "diff --git a/f b/f\n+++ b/f").get_added_lines_context
      = sentinelNoAdded :=
  ⟨c4_sentinel_short_circuit.1 "diff --git a/f b/f\n+++ b/f" .raises (by decide),
   c4_sentinel_short_circuit.2 (DiffParser.parse "diff --git a/f b/f\n+++ b/f")
     (by decide) (by decide)⟩

/-! ## Posting payload (claim C9) -/

/-- Claim C9: the payload built by `post_review` carries the `comments` key
iff the validated list is non-empty, in which case it holds exactly that
list; an empty array is never sent. -/
theorem c9_comments_field_omitted :
    ∀ (head_sha : List Char) (summary : String) (rc : List Candidate) (diff : String),
      (build_review_payload head_sha summary rc diff).comments
          = (if (validate_and_filter_comments rc (DiffParser.parse diff)).isEmpty
             then Option.none
             else some (validate_and_filter_comments rc (DiffParser.parse diff)))
        ∧ (build_review_payload head_sha summary rc diff).comments ≠ some [] := by
  intro sha s rc diff
  refine ⟨rfl, ?_⟩
  by_cases he : (validate_and_filter_comments rc (DiffParser.parse diff)).isEmpty = true
  · simp [build_review_payload, he]
  · have he' : (validate_and_filter_comments rc (DiffParser.parse diff)).isEmpty = false := by
      rcases boolFT (validate_and_filter_comments rc (DiffParser.parse diff)).isEmpty
        with h | h
      · exact h
      · exact absurd h he
    simp only [build_review_payload, he', Bool.false_eq_true, if_false,
               Option.some.injEq]
    intro hcon
    have hv := Option.some.inj hcon
    rw [hv] at he'
    simp at he'

/-! ## Orchestrated run always fails at Post (claim C3) -/

/-- Claim C3 (code bug): no run of `orchestrate_review` ever reaches the
Completed terminal state.  The call site in worker.py lines 110–115 passes
`post_review` only four of its five required keyword parameters (`diff` is
missing), so every run that survives Fetch, Generate and the placement loop
raises `TypeError` at the Post call; runs that fail earlier fail earlier. -/
theorem c3_post_call_type_error :
    (∀ (fetch : PyResult FetchOk) (g : GenOutcome) (post : PyResult Unit),
        ∀ msg, (orchestrate_review fetch g post).terminal ≠ Terminal.completed msg)
    ∧ callBinds post_review_params orchestrate_post_kwargs = false := by
  constructor
  · intro fetch g post msg
    cases fetch with
    | exn e => simp [orchestrate_review]
    | ok fr =>
        simp only [orchestrate_review]
        cases hgr : (generate_review_for_pr fr.diff g).result with
        | exn e => simp [hgr]
        | ok r =>
            cases hfmt : formatReviewLoop fr.diff (r.comments.getD []) with
            | exn e => simp [hgr, hfmt]
            | ok rcs =>
                have hcb : callBinds post_review_params orchestrate_post_kwargs
                    = false := by decide
                simp [hgr, hfmt, hcb]
  · decide

/-! ## Generation-failure containment (claim C8) -/

theorem innerMatches_nil (fp : PyVal) (pos : Nat) (cfl : Int) :
    innerMatches fp pos cfl [] = .ok [] := rfl

theorem fmtGo_nil_cands (fp : PyVal) (lines : List (List Char)) :
    ∀ (pos : Nat) (cfl : Int) (acc : List PosComment),
    fmtGo fp [] lines pos cfl acc = .ok acc := by
  induction lines with
  | nil =>
      intro pos cfl acc
      rfl
  | cons l ls ih =>
      intro pos cfl acc
      by_cases hh : (pfx "---" l || pfx "+++" l || pfx "@@" l) = true
      · simp only [fmtGo, hh, if_true]
        exact ih _ _ _
      · have hh' : (pfx "---" l || pfx "+++" l || pfx "@@" l) = false := by
          rcases boolFT (pfx "---" l || pfx "+++" l || pfx "@@" l) with h | h
          · exact h
          · exact absurd h hh
        simp only [fmtGo, hh', Bool.false_eq_true, if_false, innerMatches_nil,
                   List.append_nil]
        exact ih _ _ _

/-- Claim C8 (amended): when the generation collaborator raises (including
the JSON parser inside the chain rejecting the model text), the failure is
caught and replaced by the fixed failure placeholder with an empty comment
list, and the run continues to — and reaches — the Post call rather than
terminating on account of the generation failure.  (Collaborator output
that parses to a non-dict value is NOT recovered: see the counterexample.) -/
theorem c8_generation_failure_recovered :
    ∀ (fr : FetchOk) (post : PyResult Unit),
      (orchestrate_review (.ok fr) .raises post).genInvoked = true →
      (orchestrate_review (.ok fr) .raises post).genResult = some (.ok genFailedResp)
        ∧ (orchestrate_review (.ok fr) .raises post).reachedPostCall = true := by
  intro fr post hinv
  by_cases hsc : ((DiffParser.parse fr.diff).get_added_lines_context.all Char.isWhitespace
      || (DiffParser.parse fr.diff).get_added_lines_context == sentinelNoAdded) = true
  · exfalso
    have : (orchestrate_review (.ok fr) .raises post).genInvoked = false := by
      simp only [orchestrate_review, generate_review_for_pr, hsc, if_true,
                 formatReviewLoop, noAddedResp, Option.getD_some, fmtGo_nil_cands]
      cases post <;> simp [callBinds, post_review_params, orchestrate_post_kwargs]
    rw [this] at hinv
    exact Bool.false_ne_true hinv
  · have hsc' : ((DiffParser.parse fr.diff).get_added_lines_context.all Char.isWhitespace
        || (DiffParser.parse fr.diff).get_added_lines_context == sentinelNoAdded)
        = false := by
      rcases boolFT ((DiffParser.parse fr.diff).get_added_lines_context.all
          Char.isWhitespace
        || (DiffParser.parse fr.diff).get_added_lines_context == sentinelNoAdded)
        with h | h
      · exact h
      · exact absurd h hsc
    have hg : generate_review_for_pr fr.diff .raises = ⟨true, .ok genFailedResp⟩ := by
      simp [generate_review_for_pr, hsc']
    have hfmt : formatReviewLoop fr.diff (genFailedResp.comments.getD []) = .ok [] := by
      simp [genFailedResp, formatReviewLoop, fmtGo_nil_cands]
    constructor <;>
      simp [orchestrate_review, hg, hfmt,
            callBinds, post_review_params, orchestrate_post_kwargs]

/-- Witness for the amended C8: the empty diff renders the non-sentinel
"No changes detected in diff." message, so generation is invoked. -/
theorem c8_generation_failure_recovered_witness :
    (orchestrate_review (.ok ⟨"t", "b", ""⟩) .raises (.ok ())).genResult
        = some (.ok genFailedResp)
      ∧ (orchestrate_review (.ok ⟨"t", "b", ""⟩) .raises (.ok ())).reachedPostCall
        = true :=
  c8_generation_failure_recovered ⟨"t", "b", ""⟩ (.ok ()) (by decide)

/-- Counterexample to claim C8 as stated: collaborator output that parses to
a non-dict JSON value (e.g. an array) is unusable output, yet it is not
recovered — `response.get("summary", "N/A")` sits after the guarded block and
raises `AttributeError`, so the run never reaches Post and terminates
Failed. -/
theorem c8_nondict_output_counterexample :
    (orchestrate_review (.ok ⟨"t", "b", ""⟩) .returnsNonDict (.ok ())).genInvoked = true
    ∧ (orchestrate_review (.ok ⟨"t", "b", ""⟩) .returnsNonDict
        (.ok ())).reachedPostCall = false
    ∧ (orchestrate_review (.ok ⟨"t", "b", ""⟩) .returnsNonDict (.ok ())).terminal
        = Terminal.failed "AttributeError".toList := by
  refine ⟨by decide, by decide, by decide⟩

/-! ## Token caching under the concurrent Fetch (claim C10) -/

/-- Counterexample to claim C10 as stated: on a fresh instance, the
concurrently gathered `get_pr_details`/`get_pr_diff` pair performs TWO
installation-token exchanges — both coroutines pass `if not self._token`
before either exchange has resumed and stored a token — so the exchange is
not performed at most once over the instance's lifetime. -/
theorem c10_concurrent_double_exchange :
    (gatherFetchPair freshGhState).exchanges = 2 := by decide

/-- Claim C10 (amended): the token cache is effective for every call that
starts after some call has completed — a state with a cached token is left
untouched by both a sequential call and the gathered pair (zero further
exchanges); every completed call leaves a token cached; a fresh sequential
call performs exactly one exchange; and the gathered pair run after a
completed call performs no exchange.  Only the gathered pair on a fresh
instance performs two exchanges (see the counterexample). -/
theorem c10_token_cache_behaviour :
    (∀ s : GhState, s.token.isSome = true →
        gatherFetchPair s = s ∧ authSequential s = s)
  ∧ (∀ s : GhState, (authSequential s).token.isSome = true
        ∧ (gatherFetchPair s).token.isSome = true)
  ∧ (authSequential freshGhState).exchanges = 1
  ∧ (gatherFetchPair (authSequential freshGhState)).exchanges
      = (authSequential freshGhState).exchanges := by
  refine ⟨?_, ?_, by decide, by decide⟩
  · intro s hs
    have : s.token.isNone = false := by
      cases htok : s.token with
      | none => rw [htok] at hs; simp at hs
      | some t => simp
    constructor
    · simp [gatherFetchPair, this]
    · simp [authSequential, this]
  · intro s
    cases htok : s.token with
    | none => simp [authSequential, gatherFetchPair, htok]
    | some t => simp [authSequential, gatherFetchPair, htok]

/-- Witness for the amended C10 at a concrete cached state. -/
theorem c10_token_cache_behaviour_witness :
    gatherFetchPair ⟨some 0, 1⟩ = ⟨some 0, 1⟩ ∧ authSequential ⟨some 0, 1⟩ = ⟨some 0, 1⟩ :=
  c10_token_cache_behaviour.1 ⟨some 0, 1⟩ (by decide)

/-- Witness for C2's amended theorem at a concrete input. -/
theorem c2_validator_stable_filter_witness :
    validate_and_filter_comments [Candidate.nonDict 0] (DiffParser.parse "")
        = (([Candidate.nonDict 0]).filter (acceptsCand (DiffParser.parse ""))).map normCand
      ∧ List.Sublist (([Candidate.nonDict 0]).filter (acceptsCand (DiffParser.parse "")))
          [Candidate.nonDict 0] :=
  c2_validator_stable_filter [Candidate.nonDict 0] (DiffParser.parse "")

/-- Witness for C3's theorem at a concrete run. -/
theorem c3_post_call_type_error_witness :
    (orchestrate_review (.ok ⟨"t", "b", ""⟩) .raises (.ok ())).terminal
      ≠ Terminal.completed "Review posted successfully." :=
  c3_post_call_type_error.1 (.ok ⟨"t", "b", ""⟩) .raises (.ok ())
    "Review posted successfully."

/-- Witness for C9's theorem at a concrete input. -/
theorem c9_comments_field_omitted_witness :
    (build_review_payload "sha".toList "s" [] "").comments
        = (if (validate_and_filter_comments [] (DiffParser.parse "")).isEmpty
           then Option.none
           else some (validate_and_filter_comments [] (DiffParser.parse "")))
      ∧ (build_review_payload "sha".toList "s" [] "").comments ≠ some [] :=
  c9_comments_field_omitted "sha".toList "s" [] ""
